import Mathlib

/-!
Verification of the answer-evaluation engine of ankiwanikanisync.

JavaScript strings are modelled as lists of UTF-16 code units (one Nat per
code unit, as returned by charCodeAt).  The pure string algorithms of
_wk3_util.js / index.d.ts (levenshtein, likelyTypo, split) are translated
directly; the DOM-free grading logic of the back template (part_005) and the
pre-submission advisor of _wk3_front.ts are translated as functions of an
explicit field record (TemplateFields) plus a record of the external
services the code treats as black boxes (wanakana, stripHTML,
String.prototype.toLowerCase).
-/

namespace Wk3

/-- A JavaScript string: its sequence of UTF-16 code units. -/
abbrev JStr := List Nat

/-! ## Reference Levenshtein distance

The clean specification of unit-cost edit distance between two code-unit
sequences, with the textbook head recursion. -/

/-- Substitution cost of one code unit for another. -/
def cost (x y : Nat) : Nat := if x = y then 0 else 1

theorem cost_le_one (x y : Nat) : cost x y ≤ 1 := by
  unfold cost; split <;> omega

theorem cost_comm (x y : Nat) : cost x y = cost y x := by
  unfold cost
  by_cases h : x = y
  · simp [h]
  · rw [if_neg h, if_neg (fun hyx => h hyx.symm)]

theorem cost_triangle (x y z : Nat) : cost x z ≤ cost x y + cost y z := by
  unfold cost
  split_ifs <;> omega

theorem cost_self (x : Nat) : cost x x = 0 := by simp [cost]

/-- Unit-cost Levenshtein distance between two code-unit sequences
(the behavioural specification the implementation is checked against). -/
def lev : List Nat → List Nat → Nat
  | [], bs => bs.length
  | _ :: as, [] => as.length + 1
  | x :: as, y :: bs =>
      min (lev as (y :: bs) + 1)
        (min (lev (x :: as) bs + 1) (lev as bs + cost x y))
termination_by a b => a.length + b.length
decreasing_by all_goals simp [List.length] <;> omega

theorem lev_nil_left (bs : List Nat) : lev [] bs = bs.length := by
  simp [lev]

theorem lev_nil_right (as : List Nat) : lev as [] = as.length := by
  cases as with
  | nil => simp [lev]
  | cons x as => simp only [lev, List.length_cons]

theorem lev_cons_cons (x y : Nat) (as bs : List Nat) :
    lev (x :: as) (y :: bs) =
      min (lev as (y :: bs) + 1)
        (min (lev (x :: as) bs + 1) (lev as bs + cost x y)) := by
  simp [lev]

theorem lev_self (a : List Nat) : lev a a = 0 := by
  induction a with
  | nil => simp [lev]
  | cons x as ih =>
      rw [lev_cons_cons, cost_self, ih]
      omega

/-- Deleting the first code unit of the left string changes the distance by
at most one. -/
theorem lev_cons_left_le (x : Nat) (as bs : List Nat) :
    lev (x :: as) bs ≤ lev as bs + 1 := by
  cases bs with
  | nil => rw [lev_nil_right, lev_nil_right]; simp only [List.length_cons]; omega
  | cons y bs => rw [lev_cons_cons]; omega

/-- Deleting the first code unit of the right string changes the distance by
at most one. -/
theorem lev_cons_right_le (y : Nat) (as bs : List Nat) :
    lev as (y :: bs) ≤ lev as bs + 1 := by
  cases as with
  | nil => rw [lev_nil_left, lev_nil_left]; simp only [List.length_cons]; omega
  | cons x as => rw [lev_cons_cons]; omega

theorem le_lev_cons_left (x : Nat) (as bs : List Nat) :
    lev as bs ≤ lev (x :: as) bs + 1 := by
  induction bs generalizing as with
  | nil => rw [lev_nil_right, lev_nil_right]; simp only [List.length_cons]; omega
  | cons y ys ih =>
      have h1 := lev_cons_right_le y as ys
      have h2 := ih as
      have h3 := cost_le_one x y
      rw [lev_cons_cons]
      omega

theorem le_lev_cons_right (y : Nat) (as bs : List Nat) :
    lev as bs ≤ lev as (y :: bs) + 1 := by
  induction as generalizing bs with
  | nil => rw [lev_nil_left, lev_nil_left]; simp only [List.length_cons]; omega
  | cons x xs ih =>
      have h1 := lev_cons_left_le x xs bs
      have h2 := ih bs
      have h3 := cost_le_one x y
      rw [lev_cons_cons]
      omega

/-- Equal leading code units do not contribute to the distance. -/
theorem lev_cons_same (c : Nat) (as bs : List Nat) :
    lev (c :: as) (c :: bs) = lev as bs := by
  have h1 := le_lev_cons_right c as bs
  have h2 := le_lev_cons_left c as bs
  rw [lev_cons_cons, cost_self]
  omega

/-- A shared prefix does not contribute to the distance. -/
theorem lev_append_left (p as bs : List Nat) :
    lev (p ++ as) (p ++ bs) = lev as bs := by
  induction p with
  | nil => simp
  | cons c p ih => simpa [lev_cons_same] using ih

set_option maxHeartbeats 800000 in
/-- Recurrence of the Levenshtein distance at the last position of each
string (the mirror image of the defining head recurrence).  This is the key
fact behind the forward dynamic-programming loop of the implementation. -/
theorem lev_snoc (x y : Nat) (xs : List Nat) : ∀ ys : List Nat,
    lev (xs ++ [x]) (ys ++ [y]) =
      min (lev xs (ys ++ [y]) + 1)
        (min (lev (xs ++ [x]) ys + 1) (lev xs ys + cost x y)) := by
  induction xs with
  | nil =>
      intro ys
      induction ys with
      | nil => simpa using lev_cons_cons x y [] []
      | cons z zs ihy =>
          have E1 := lev_cons_cons x z [] (zs ++ [y])
          have E3 := lev_cons_cons x z [] zs
          simp only [List.nil_append, List.cons_append] at *
          rw [E1, E3, ihy]
          simp only [lev_nil_left, List.length_cons, List.length_append,
            List.length_nil]
          omega
  | cons w ws ihx =>
      intro ys
      induction ys with
      | nil =>
          have E1 := lev_cons_cons w y (ws ++ [x]) []
          have E2 := ihx []
          have E3 := lev_cons_cons w y ws []
          simp only [List.nil_append, List.cons_append] at *
          rw [E1, E3, E2]
          simp only [lev_nil_right, List.length_cons, List.length_append,
            List.length_nil]
          omega
      | cons z zs ihy =>
          have E1 := lev_cons_cons w z (ws ++ [x]) (zs ++ [y])
          have E2 := ihx (z :: zs)
          have E4 := ihx zs
          have E5 := lev_cons_cons w z ws (zs ++ [y])
          have E6 := lev_cons_cons w z (ws ++ [x]) zs
          have E7 := lev_cons_cons w z ws zs
          simp only [List.cons_append] at *
          rw [E1, E5, E6, E7, E2, E4, ihy]
          clear E1 E2 E4 E5 E6 E7 ihy ihx
          generalize lev ws (z :: (zs ++ [y])) = A
          generalize lev (ws ++ [x]) (z :: zs) = B
          generalize lev ws (z :: zs) = C
          generalize lev (w :: ws) (zs ++ [y]) = D
          generalize lev (w :: (ws ++ [x])) zs = E
          generalize lev (w :: ws) zs = F
          generalize lev ws (zs ++ [y]) = G
          generalize lev (ws ++ [x]) zs = H
          generalize lev ws zs = I
          generalize cost w z = p
          generalize cost x y = q
          simp only [← min_add_add_right]
          refine le_antisymm ?_ ?_ <;> simp only [le_min_iff, min_le_iff] <;>
            omega

/-- The Levenshtein distance is invariant under reversing both strings. -/
theorem lev_reverse (a b : List Nat) : lev a.reverse b.reverse = lev a b := by
  have key : ∀ n a b, List.length a + List.length b ≤ n →
      lev (List.reverse a) (List.reverse b) = lev a b := by
    intro n
    induction n with
    | zero =>
        intro a b h
        have ha : a = [] := List.eq_nil_of_length_eq_zero (by omega)
        have hb : b = [] := List.eq_nil_of_length_eq_zero (by omega)
        subst ha; subst hb; rfl
    | succ n ih =>
        intro a b h
        rcases a with _ | ⟨x, as⟩
        · simp [lev_nil_left]
        · rcases b with _ | ⟨y, bs⟩
          · simp [lev_nil_right]
          · simp only [List.length_cons] at h
            have h1 : lev as.reverse (bs.reverse ++ [y]) = lev as (y :: bs) := by
              rw [show bs.reverse ++ [y] = (y :: bs).reverse by simp]
              exact ih as (y :: bs) (by simp only [List.length_cons]; omega)
            have h2 : lev (as.reverse ++ [x]) bs.reverse = lev (x :: as) bs := by
              rw [show as.reverse ++ [x] = (x :: as).reverse by simp]
              exact ih (x :: as) bs (by simp only [List.length_cons]; omega)
            have h3 : lev as.reverse bs.reverse = lev as bs :=
              ih as bs (by omega)
            rw [List.reverse_cons, List.reverse_cons, lev_snoc,
              h1, h2, h3, lev_cons_cons]
  exact key (a.length + b.length) a b le_rfl

/-- The Levenshtein distance is symmetric. -/
theorem lev_symm (a b : List Nat) : lev a b = lev b a := by
  have key : ∀ n a b, List.length a + List.length b ≤ n → lev a b = lev b a := by
    intro n
    induction n with
    | zero =>
        intro a b h
        have ha : a = [] := List.eq_nil_of_length_eq_zero (by omega)
        have hb : b = [] := List.eq_nil_of_length_eq_zero (by omega)
        subst ha; subst hb; rfl
    | succ n ih =>
        intro a b h
        rcases a with _ | ⟨x, as⟩
        · rw [lev_nil_left, lev_nil_right]
        · rcases b with _ | ⟨y, bs⟩
          · rw [lev_nil_left, lev_nil_right]
          · simp only [List.length_cons] at h
            rw [lev_cons_cons, lev_cons_cons,
              ih as (y :: bs) (by simp only [List.length_cons]; omega),
              ih (x :: as) bs (by simp only [List.length_cons]; omega),
              ih as bs (by omega), cost_comm]
            omega
  exact key (a.length + b.length) a b le_rfl

/-- The distance never exceeds the total length of the two strings. -/
theorem lev_le_length (a : List Nat) : ∀ b, lev a b ≤ a.length + b.length := by
  induction a with
  | nil => intro b; rw [lev_nil_left]; omega
  | cons x as ih =>
      intro b
      rcases b with _ | ⟨y, bs⟩
      · rw [lev_nil_right]; omega
      · have h1 := ih (y :: bs)
        have h2 := lev_cons_cons x y as bs
        simp only [List.length_cons] at *
        omega

/-- The distance is at least the difference of the two lengths. -/
theorem length_le_lev (a b : List Nat) :
    a.length ≤ b.length + lev a b ∧ b.length ≤ a.length + lev a b := by
  have key : ∀ n a b, List.length a + List.length b ≤ n →
      List.length a ≤ List.length b + lev a b ∧
      List.length b ≤ List.length a + lev a b := by
    intro n
    induction n with
    | zero =>
        intro a b h
        have ha : a = [] := List.eq_nil_of_length_eq_zero (by omega)
        have hb : b = [] := List.eq_nil_of_length_eq_zero (by omega)
        subst ha; subst hb; simp [lev]
    | succ n ih =>
        intro a b h
        rcases a with _ | ⟨x, as⟩
        · rw [lev_nil_left]; simp only [List.length_nil]; omega
        · rcases b with _ | ⟨y, bs⟩
          · rw [lev_nil_right]
            simp only [List.length_cons, List.length_nil]; omega
          · simp only [List.length_cons] at h ⊢
            have h1 := ih as (y :: bs) (by simp only [List.length_cons]; omega)
            have h2 := ih (x :: as) bs (by simp only [List.length_cons]; omega)
            have h3 := ih as bs (by omega)
            have h4 := lev_cons_cons x y as bs
            simp only [List.length_cons] at h1 h2
            omega
  exact key (a.length + b.length) a b le_rfl

/-- Triangle inequality for the Levenshtein distance. -/
theorem lev_triangle (a b c : List Nat) : lev a c ≤ lev a b + lev b c := by
  have key : ∀ n a b c, List.length a + List.length b + List.length c ≤ n →
      lev a c ≤ lev a b + lev b c := by
    intro n
    induction n with
    | zero =>
        intro a b c h
        have ha : a = [] := List.eq_nil_of_length_eq_zero (by omega)
        have hc : c = [] := List.eq_nil_of_length_eq_zero (by omega)
        subst ha; subst hc; simp [lev]
    | succ n ih =>
        intro a b c h
        rcases b with _ | ⟨y, bs⟩
        · have h1 := lev_le_length a c
          have h2 := lev_nil_left c
          have h3 := lev_nil_right a
          omega
        · rcases a with _ | ⟨x, as⟩
          · have h1 := lev_nil_left c
            have h2 := lev_nil_left (y :: bs)
            have h3 := (length_le_lev (y :: bs) c).2
            omega
          · rcases c with _ | ⟨z, cs⟩
            · have h1 := lev_nil_right (x :: as)
              have h2 := lev_nil_right (y :: bs)
              have h3 := (length_le_lev (x :: as) (y :: bs)).1
              omega
            · simp only [List.length_cons] at h
              have hab := lev_cons_cons x y as bs
              have hbc := lev_cons_cons y z bs cs
              have hac := lev_cons_cons x z as cs
              have I1 := ih as (y :: bs) (z :: cs)
                (by simp only [List.length_cons]; omega)
              have I2 := ih as bs (z :: cs)
                (by simp only [List.length_cons]; omega)
              have I3 := ih as bs cs (by omega)
              have I4 := ih (x :: as) (y :: bs) cs
                (by simp only [List.length_cons]; omega)
              have I5 := ih (x :: as) bs cs
                (by simp only [List.length_cons]; omega)
              have I6 := ih (x :: as) bs (z :: cs)
                (by simp only [List.length_cons]; omega)
              have C1 := cost_triangle x y z
              have C2 := cost_le_one x y
              have C3 := cost_le_one y z
              have C4 := cost_le_one x z
              omega
  exact key (a.length + b.length + c.length) a b c le_rfl

/-- A shared suffix does not contribute to the distance. -/
theorem lev_append_right (a b s : List Nat) :
    lev (a ++ s) (b ++ s) = lev a b := by
  calc lev (a ++ s) (b ++ s)
      = lev (a ++ s).reverse (b ++ s).reverse := (lev_reverse _ _).symm
    _ = lev (s.reverse ++ a.reverse) (s.reverse ++ b.reverse) := by
        rw [List.reverse_append, List.reverse_append]
    _ = lev a.reverse b.reverse := lev_append_left _ _ _
    _ = lev a b := lev_reverse _ _

/-- Appending one code unit to the left string changes the distance by at
most one (mirror of the corresponding cons bound). -/
theorem le_lev_snoc_left (x : Nat) (as bs : List Nat) :
    lev as bs ≤ lev (as ++ [x]) bs + 1 := by
  have h := le_lev_cons_left x as.reverse bs.reverse
  rw [lev_reverse] at h
  calc lev as bs ≤ lev (x :: as.reverse) bs.reverse + 1 := h
    _ = lev (as ++ [x]).reverse bs.reverse + 1 := by simp
    _ = lev (as ++ [x]) bs + 1 := by rw [lev_reverse]

/-- Appending one code unit to the right string changes the distance by at
most one. -/
theorem le_lev_snoc_right (y : Nat) (as bs : List Nat) :
    lev as bs ≤ lev as (bs ++ [y]) + 1 := by
  have h := le_lev_cons_right y as.reverse bs.reverse
  rw [lev_reverse] at h
  calc lev as bs ≤ lev as.reverse (y :: bs.reverse) + 1 := h
    _ = lev as.reverse (bs ++ [y]).reverse + 1 := by simp
    _ = lev as (bs ++ [y]) + 1 := by rw [lev_reverse]

/-! ## The implementation of levenshtein from _wk3_util.js / index.d.ts

The source operates on JavaScript strings through charCodeAt, i.e. on UTF-16
code units, which is exactly the JStr representation.  The two while loops
over columns are translated as structural recursion over the remaining
suffix of the longer string; the mutable vector (which interleaves running
distances with the code units of the shorter string) becomes a list of
pairs. -/

/-- Translation of the helper _min of the reference implementation. -/
def minJS (d0 d1 d2 bx ay : Nat) : Nat :=
  if d0 < d1 ∨ d2 < d1 then (if d2 < d0 then d2 + 1 else d0 + 1)
  else if bx = ay then d1 else d1 + 1

/-- One iteration of the trailing single-column while loop: given the code
unit bx0 of the current column, the vector (pairs of running distance and
code unit), the entering diagonal d0 and the entering top cell dd, produce
the updated vector and the final dd of the column. -/
def colStep (bx0 : Nat) : List (Nat × Nat) → Nat → Nat → List (Nat × Nat) × Nat
  | [], _, dd => ([], dd)
  | (dy, ay) :: rest, d0, dd =>
      let ddN := minJS dy d0 dd bx0 ay
      let r := colStep bx0 rest dy ddN
      ((ddN, ay) :: r.1, r.2)

/-- One iteration of the four-column unrolled while loop: processes four
columns of the longer string at once, row by row. -/
def col4Row (bx0 bx1 bx2 bx3 : Nat) :
    List (Nat × Nat) → Nat → Nat → Nat → Nat → Nat → List (Nat × Nat) × Nat
  | [], _, _, _, _, dd => ([], dd)
  | (dy, ay) :: rest, d0, d1, d2, d3, dd =>
      let e0 := minJS dy d0 d1 bx0 ay
      let e1 := minJS e0 d1 d2 bx1 ay
      let e2 := minJS e1 d2 d3 bx2 ay
      let ddN := minJS e2 d3 dd bx3 ay
      let r := col4Row bx0 bx1 bx2 bx3 rest dy e0 e1 e2 ddN
      ((ddN, ay) :: r.1, r.2)

/-- The trailing while loop (one column per iteration), recursing over the
unprocessed suffix of the longer string. -/
def levTail : List Nat → Nat → List (Nat × Nat) → Nat → Nat
  | [], _, _, dd => dd
  | bx :: brest, x, vec, _ =>
      let r := colStep bx vec x (x + 1)
      levTail brest (x + 1) r.1 r.2

/-- The main while loop (four columns per iteration while at least four
columns remain), followed by the trailing loop. -/
def levLoop : List Nat → Nat → List (Nat × Nat) → Nat → Nat
  | bx0 :: bx1 :: bx2 :: bx3 :: brest, x, vec, _ =>
      let r := col4Row bx0 bx1 bx2 bx3 vec x (x + 1) (x + 2) (x + 3) (x + 4)
      levLoop brest (x + 4) r.1 r.2
  | bsuf, x, vec, dd => levTail bsuf x vec dd

/-- The common-suffix trimming loop of the implementation (la and lb count
the not-yet-trimmed prefixes of the two strings). -/
def suffixTrim (a b : List Nat) : Nat → Nat → Nat × Nat
  | 0, lb => (0, lb)
  | la + 1, lb =>
      if a.getD la 0 = b.getD (lb - 1) 0 then suffixTrim a b la (lb - 1)
      else (la + 1, lb)

/-- The common-prefix trimming loop of the implementation; fuel bounds the
number of iterations (the caller passes la, which always suffices since the
offset grows towards la). -/
def prefixTrim (a b : List Nat) (la : Nat) : Nat → Nat → Nat
  | 0, offset => offset
  | fuel + 1, offset =>
      if offset < la ∧ a.getD offset 0 = b.getD offset 0 then
        prefixTrim a b la fuel (offset + 1)
      else offset

/-- The body of levenshtein after the length swap (a is the shorter string):
common suffix and prefix trimming, a shortcut for trivial remainders, then
the vectorized dynamic-programming loops on the trimmed substrings. -/
def levRest (a b : List Nat) : Nat :=
  let st := suffixTrim a b a.length b.length
  let offset := prefixTrim a b st.1 st.1 0
  let la := st.1 - offset
  let lb := st.2 - offset
  if la = 0 ∨ lb < 3 then lb
  else
    levLoop ((b.drop offset).take lb) 0
      ((List.range la).map (fun y => (y + 1, ((a.drop offset).take la).getD y 0)))
      0

/-- Translation of the function levenshtein of _wk3_util.js: early equality
exit, swap so that the first string is the shorter, then levRest. -/
def levenshtein (a0 b0 : List Nat) : Nat :=
  if a0 = b0 then 0
  else if b0.length < a0.length then levRest b0 a0
  else levRest a0 b0

/-! ## Correctness of the implementation loops -/

/-- Entry (i, j) of the dynamic-programming table: the distance between the
length-i prefix of a and the length-j prefix of b. -/
def dTab (a b : List Nat) (i j : Nat) : Nat := lev (a.take i) (b.take j)

theorem take_succ_getD (a : List Nat) (i : Nat) (h : i < a.length) :
    a.take (i + 1) = a.take i ++ [a.getD i 0] := by
  induction a generalizing i with
  | nil => simp at h
  | cons c as ih =>
      cases i with
      | zero => simp
      | succ i =>
          simp only [List.length_cons] at h
          simp only [List.take_succ_cons, List.getD_cons_succ]
          rw [ih i (by omega)]
          rfl

theorem dTab_zero_left (a b : List Nat) (j : Nat) (hj : j ≤ b.length) :
    dTab a b 0 j = j := by
  unfold dTab
  rw [List.take_zero, lev_nil_left, List.length_take]
  omega

theorem dTab_zero_right (a b : List Nat) (i : Nat) (hi : i ≤ a.length) :
    dTab a b i 0 = i := by
  unfold dTab
  rw [List.take_zero, lev_nil_right, List.length_take]
  omega

theorem dTab_succ_succ (a b : List Nat) (i j : Nat) (hi : i < a.length)
    (hj : j < b.length) :
    dTab a b (i + 1) (j + 1) =
      min (dTab a b i (j + 1) + 1)
        (min (dTab a b (i + 1) j + 1)
          (dTab a b i j + cost (a.getD i 0) (b.getD j 0))) := by
  unfold dTab
  rw [take_succ_getD a i hi, take_succ_getD b j hj, lev_snoc]

theorem dTab_left_adj (a b : List Nat) (i j : Nat) (hi : i < a.length) :
    dTab a b i j ≤ dTab a b (i + 1) j + 1 := by
  unfold dTab
  rw [take_succ_getD a i hi]
  exact le_lev_snoc_left _ _ _

theorem dTab_up_adj (a b : List Nat) (i j : Nat) (hj : j < b.length) :
    dTab a b i j ≤ dTab a b i (j + 1) + 1 := by
  unfold dTab
  rw [take_succ_getD b j hj]
  exact le_lev_snoc_right _ _ _

/-- The branch-free _min of the implementation computes the correct
dynamic-programming cell, thanks to the adjacency bounds of the table. -/
theorem minJS_cell (a b : List Nat) (i j : Nat) (hi : i < a.length)
    (hj : j < b.length) :
    minJS (dTab a b (i + 1) j) (dTab a b i j) (dTab a b i (j + 1))
        (b.getD j 0) (a.getD i 0) = dTab a b (i + 1) (j + 1) := by
  have hrec := dTab_succ_succ a b i j hi hj
  have h1 := dTab_left_adj a b i j hi
  have h2 := dTab_up_adj a b i j hj
  unfold cost at hrec
  unfold minJS
  split_ifs at hrec ⊢ <;> omega

/-- Invariant of the trailing single-column loop body: one pass of colStep
maps the column-j vector to the column-(j+1) vector and returns the bottom
cell of column j+1. -/
theorem colStep_spec (a b : List Nat) (j : Nat) (hj : j < b.length) :
    ∀ n i : Nat, i + n = a.length →
    colStep (b.getD j 0)
        ((List.range' i n).map (fun r => (dTab a b (r + 1) j, a.getD r 0)))
        (dTab a b i j) (dTab a b i (j + 1)) =
      ((List.range' i n).map (fun r => (dTab a b (r + 1) (j + 1), a.getD r 0)),
        dTab a b a.length (j + 1)) := by
  intro n
  induction n with
  | zero =>
      intro i hi
      have he : i = a.length := by omega
      subst he
      simp [colStep, List.range']
  | succ n ih =>
      intro i hi
      have hrec := ih (i + 1) (by omega)
      rw [show List.range' i (n + 1) = i :: List.range' (i + 1) n from rfl]
      simp only [List.map_cons, colStep]
      rw [minJS_cell a b i j (by omega) hj, hrec]

/-- Invariant of the unrolled four-column loop body: one pass of col4Row
maps the column-j vector to the column-(j+4) vector and returns the bottom
cell of column j+4. -/
theorem col4Row_spec (a b : List Nat) (j : Nat) (hj : j + 4 ≤ b.length) :
    ∀ n i : Nat, i + n = a.length →
    col4Row (b.getD j 0) (b.getD (j + 1) 0) (b.getD (j + 2) 0)
        (b.getD (j + 3) 0)
        ((List.range' i n).map (fun r => (dTab a b (r + 1) j, a.getD r 0)))
        (dTab a b i j) (dTab a b i (j + 1)) (dTab a b i (j + 2))
        (dTab a b i (j + 3)) (dTab a b i (j + 4)) =
      ((List.range' i n).map (fun r => (dTab a b (r + 1) (j + 4), a.getD r 0)),
        dTab a b a.length (j + 4)) := by
  intro n
  induction n with
  | zero =>
      intro i hi
      have he : i = a.length := by omega
      subst he
      simp [col4Row, List.range']
  | succ n ih =>
      intro i hi
      have hia : i < a.length := by omega
      have hrec := ih (i + 1) (by omega)
      have c1 := minJS_cell a b i j hia (by omega)
      have c2 := minJS_cell a b i (j + 1) hia (by omega)
      have c3 := minJS_cell a b i (j + 2) hia (by omega)
      have c4 := minJS_cell a b i (j + 3) hia (by omega)
      rw [show j + 1 + 1 = j + 2 from rfl] at c2
      rw [show j + 2 + 1 = j + 3 from rfl] at c3
      rw [show j + 3 + 1 = j + 4 from rfl] at c4
      rw [show List.range' i (n + 1) = i :: List.range' (i + 1) n from rfl]
      simp only [List.map_cons, col4Row]
      rw [c1, c2, c3, c4, hrec]

theorem drop_eq_getD_cons (l : List Nat) (n : Nat) (h : n < l.length) :
    l.drop n = l.getD n 0 :: l.drop (n + 1) := by
  induction l generalizing n with
  | nil => simp at h
  | cons c cs ih =>
      cases n with
      | zero => simp
      | succ n =>
          simp only [List.length_cons] at h
          simp only [List.drop_succ_cons, List.getD_cons_succ]
          exact ih n (by omega)

theorem drop_cons_info (b : List Nat) (x c : Nat) (rest : List Nat)
    (h : b.drop x = c :: rest) :
    x < b.length ∧ b.getD x 0 = c ∧ b.drop (x + 1) = rest := by
  have hlen : x < b.length := by
    by_contra hx
    rw [List.drop_eq_nil_of_le (by omega)] at h
    exact absurd h (by simp)
  have hd := drop_eq_getD_cons b x hlen
  rw [h] at hd
  injection hd with h1 h2
  exact ⟨hlen, h1.symm, h2.symm⟩

/-- The trailing loop, started on the column-x vector with any x columns
already processed, finishes the table: it returns its dd argument if no
columns remain and the bottom-right table entry otherwise. -/
theorem levTail_spec (a b : List Nat) :
    ∀ (bsuf : List Nat) (x dd : Nat), bsuf = b.drop x → x ≤ b.length →
    levTail bsuf x
        ((List.range' 0 a.length).map (fun r => (dTab a b (r + 1) x, a.getD r 0)))
        dd =
      (if bsuf = [] then dd else dTab a b a.length b.length) := by
  intro bsuf
  induction bsuf with
  | nil => intro x dd h hx; simp [levTail]
  | cons bx brest ih =>
      intro x dd h hx
      obtain ⟨hxlt, hbx, hdrop⟩ := drop_cons_info b x bx brest h.symm
      have hcs := colStep_spec a b x hxlt a.length 0 (by omega)
      rw [dTab_zero_left a b x (by omega),
        dTab_zero_left a b (x + 1) (by omega)] at hcs
      rw [hbx] at hcs
      simp only [levTail]
      rw [hcs]
      dsimp only
      rw [if_neg (show ¬(bx :: brest = ([] : List Nat)) by simp)]
      have hrec := ih (x + 1) (dTab a b a.length (x + 1)) hdrop.symm (by omega)
      rw [hrec]
      by_cases hb : brest = []
      · have hxe : x + 1 = b.length := by
          have := congrArg List.length hdrop
          rw [hb, List.length_drop] at this
          simp at this
          omega
        rw [if_pos hb, hxe]
      · rw [if_neg hb]

/-- The four-column loop followed by the trailing loop, started on the
column-x vector, finishes the table. -/
theorem levLoop_spec (a b : List Nat) :
    ∀ (m : Nat) (bsuf : List Nat) (x dd : Nat), bsuf.length ≤ m →
    bsuf = b.drop x → x ≤ b.length →
    levLoop bsuf x
        ((List.range' 0 a.length).map (fun r => (dTab a b (r + 1) x, a.getD r 0)))
        dd =
      (if bsuf = [] then dd else dTab a b a.length b.length) := by
  intro m
  induction m with
  | zero =>
      intro bsuf x dd hm h hx
      have he : bsuf = [] := List.eq_nil_of_length_eq_zero (by omega)
      subst he
      simp [levLoop, levTail]
  | succ m ih =>
      intro bsuf x dd hm h hx
      rcases bsuf with _ | ⟨b0, _ | ⟨b1, _ | ⟨b2, _ | ⟨b3, brest⟩⟩⟩⟩
      · simp [levLoop, levTail]
      · simp only [levLoop]
        exact levTail_spec a b [b0] x dd h hx
      · simp only [levLoop]
        exact levTail_spec a b [b0, b1] x dd h hx
      · simp only [levLoop]
        exact levTail_spec a b [b0, b1, b2] x dd h hx
      · obtain ⟨hx0, he0, hd0⟩ := drop_cons_info b x b0 _ h.symm
        obtain ⟨hx1, he1, hd1⟩ := drop_cons_info b (x + 1) b1 _ hd0
        obtain ⟨hx2, he2, hd2⟩ := drop_cons_info b (x + 2) b2 _ hd1
        obtain ⟨hx3, he3, hd3⟩ := drop_cons_info b (x + 3) b3 _ hd2
        have hc4 := col4Row_spec a b x (by omega) a.length 0 (by omega)
        rw [dTab_zero_left a b x (by omega),
          dTab_zero_left a b (x + 1) (by omega),
          dTab_zero_left a b (x + 2) (by omega),
          dTab_zero_left a b (x + 3) (by omega),
          dTab_zero_left a b (x + 4) (by omega)] at hc4
        rw [he0, he1, he2, he3] at hc4
        simp only [levLoop]
        rw [hc4]
        dsimp only
        rw [if_neg (show ¬(b0 :: b1 :: b2 :: b3 :: brest = ([] : List Nat)) by simp)]
        have hrec := ih brest (x + 4) (dTab a b a.length (x + 4))
          (by simp only [List.length_cons] at hm; omega) hd3.symm (by omega)
        rw [hrec]
        by_cases hb : brest = []
        · have hxe : x + 4 = b.length := by
            have := congrArg List.length hd3
            rw [hb, List.length_drop] at this
            simp at this
            omega
          rw [if_pos hb, hxe]
        · rw [if_neg hb]

/-- Entry point of the loops on the full (trimmed) strings: starting at
column zero with the initial vector, they compute the distance, provided
the second string is non-empty. -/
theorem levLoop_full (a b : List Nat) (hb : b ≠ []) :
    levLoop b 0 ((List.range a.length).map (fun y => (y + 1, a.getD y 0))) 0 =
      lev a b := by
  have hvec : (List.range a.length).map (fun y => (y + 1, a.getD y 0)) =
      (List.range' 0 a.length).map (fun r => (dTab a b (r + 1) 0, a.getD r 0)) := by
    rw [List.range_eq_range']
    apply List.map_congr_left
    intro r hr
    have hrlen : r < a.length := by
      have := List.mem_range'_1.mp hr
      omega
    rw [dTab_zero_right a b (r + 1) (by omega)]
  rw [hvec]
  have hspec := levLoop_spec a b b.length b 0 0 le_rfl (by simp) (by omega)
  rw [hspec, if_neg hb]
  unfold dTab
  rw [List.take_length, List.take_length]

/-- Invariant of the common-suffix trimming loop. -/
theorem suffixTrim_inv (a b : List Nat) : ∀ la lb : Nat,
    la ≤ a.length → la ≤ lb → lb ≤ b.length → a.drop la = b.drop lb →
    (suffixTrim a b la lb).1 ≤ la ∧
    (suffixTrim a b la lb).2 ≤ lb ∧
    (suffixTrim a b la lb).1 ≤ (suffixTrim a b la lb).2 ∧
    lb - la = (suffixTrim a b la lb).2 - (suffixTrim a b la lb).1 ∧
    a.drop (suffixTrim a b la lb).1 = b.drop (suffixTrim a b la lb).2 ∧
    ((suffixTrim a b la lb).1 = 0 ∨
      a.getD ((suffixTrim a b la lb).1 - 1) 0 ≠
        b.getD ((suffixTrim a b la lb).2 - 1) 0) := by
  intro la
  induction la with
  | zero =>
      intro lb h1 h2 h3 h4
      have he : suffixTrim a b 0 lb = (0, lb) := rfl
      rw [he]
      exact ⟨le_rfl, le_rfl, h2, rfl, h4, Or.inl rfl⟩
  | succ la ih =>
      intro lb h1 h2 h3 h4
      simp only [suffixTrim]
      by_cases hc : a.getD la 0 = b.getD (lb - 1) 0
      · rw [if_pos hc]
        have hla : la < a.length := by omega
        have hlb : lb - 1 < b.length := by omega
        have da := drop_eq_getD_cons a la hla
        have db := drop_eq_getD_cons b (lb - 1) hlb
        rw [show lb - 1 + 1 = lb from by omega] at db
        have hdrop : a.drop la = b.drop (lb - 1) := by
          rw [da, db, h4, hc]
        obtain ⟨g1, g2, g3, g4, g5, g6⟩ :=
          ih (lb - 1) (by omega) (by omega) (by omega) hdrop
        exact ⟨by omega, by omega, g3, by omega, g5, g6⟩
      · rw [if_neg hc]
        refine ⟨le_rfl, le_rfl, h2, rfl, h4, Or.inr ?_⟩
        simpa using hc

/-- Invariant of the common-prefix trimming loop. -/
theorem prefixTrim_inv (a b : List Nat) (la : Nat) (hlaa : la ≤ a.length)
    (hlab : la ≤ b.length) : ∀ fuel offset : Nat,
    la ≤ fuel + offset → offset ≤ la → a.take offset = b.take offset →
    offset ≤ prefixTrim a b la fuel offset ∧
    prefixTrim a b la fuel offset ≤ la ∧
    a.take (prefixTrim a b la fuel offset) =
      b.take (prefixTrim a b la fuel offset) ∧
    (prefixTrim a b la fuel offset = la ∨
      a.getD (prefixTrim a b la fuel offset) 0 ≠
        b.getD (prefixTrim a b la fuel offset) 0) := by
  intro fuel
  induction fuel with
  | zero =>
      intro offset h1 h2 h3
      have he : prefixTrim a b la 0 offset = offset := rfl
      rw [he]
      exact ⟨le_rfl, h2, h3, Or.inl (by omega)⟩
  | succ fuel ih =>
      intro offset h1 h2 h3
      simp only [prefixTrim]
      by_cases hc : offset < la ∧ a.getD offset 0 = b.getD offset 0
      · rw [if_pos hc]
        have htake : a.take (offset + 1) = b.take (offset + 1) := by
          rw [take_succ_getD a offset (by omega),
            take_succ_getD b offset (by omega), h3, hc.2]
        obtain ⟨g1, g2, g3, g4⟩ := ih (offset + 1) (by omega) (by omega) htake
        exact ⟨by omega, g2, g3, g4⟩
      · rw [if_neg hc]
        push_neg at hc
        refine ⟨le_rfl, h2, h3, ?_⟩
        by_cases ho : offset = la
        · exact Or.inl ho
        · exact Or.inr (hc (by omega))

/-- Trimming a shared suffix of the two strings preserves the distance. -/
theorem lev_of_trims (a b : List Nat) (la lb : Nat)
    (hdrop : a.drop la = b.drop lb) :
    lev a b = lev (a.take la) (b.take lb) := by
  have h : lev a b = lev (a.take la ++ a.drop la) (b.take lb ++ b.drop lb) := by
    rw [List.take_append_drop, List.take_append_drop]
  rw [h, hdrop, lev_append_right]

/-- Trimming a shared prefix of the two prefixes preserves the distance. -/
theorem lev_take_take (a b : List Nat) (la lb off : Nat) (hoffa : off ≤ la)
    (hoffb : off ≤ lb) (hpre : a.take off = b.take off) :
    lev (a.take la) (b.take lb) =
      lev ((a.drop off).take (la - off)) ((b.drop off).take (lb - off)) := by
  have ha : a.take la = a.take off ++ (a.drop off).take (la - off) := by
    calc a.take la = (a.take la).take off ++ (a.take la).drop off :=
          (List.take_append_drop off (a.take la)).symm
      _ = a.take off ++ (a.drop off).take (la - off) := by
          rw [List.take_take, min_eq_left hoffa, List.drop_take]
  have hb : b.take lb = b.take off ++ (b.drop off).take (lb - off) := by
    calc b.take lb = (b.take lb).take off ++ (b.take lb).drop off :=
          (List.take_append_drop off (b.take lb)).symm
      _ = b.take off ++ (b.drop off).take (lb - off) := by
          rw [List.take_take, min_eq_left hoffb, List.drop_take]
  rw [ha, hb, hpre, lev_append_left]

theorem getD_take (l : List Nat) (k m : Nat) (h : m < k) :
    (l.take k).getD m 0 = l.getD m 0 := by
  induction l generalizing k m with
  | nil => simp
  | cons c cs ih =>
      cases k with
      | zero => omega
      | succ k =>
          cases m with
          | zero => simp
          | succ m =>
              simp only [List.take_succ_cons, List.getD_cons_succ]
              exact ih k m (by omega)

theorem getD_drop (l : List Nat) (n m : Nat) :
    (l.drop n).getD m 0 = l.getD (n + m) 0 := by
  induction l generalizing n with
  | nil => simp
  | cons c cs ih =>
      cases n with
      | zero => simp
      | succ n =>
          simp only [List.drop_succ_cons]
          rw [ih n, show n + 1 + m = (n + m) + 1 from by omega,
            List.getD_cons_succ]

theorem lev_single (x y : Nat) : lev [x] [y] = cost x y := by
  have h := cost_le_one x y
  rw [lev_cons_cons]
  simp only [lev_nil_left, lev_nil_right, List.length_cons, List.length_nil]
  omega

theorem lev_one_two (x y0 y1 : Nat) :
    lev [x] [y0, y1] = min (cost x y0) (cost x y1) + 1 := by
  have h0 := cost_le_one x y0
  have h1 := cost_le_one x y1
  rw [lev_cons_cons, lev_single]
  simp only [lev_nil_left, lev_nil_right, List.length_cons, List.length_nil]
  omega

theorem lev_two_one (x0 x1 y : Nat) :
    lev [x0, x1] [y] = min (cost x0 y) (cost x1 y) + 1 := by
  have h0 := cost_le_one x0 y
  have h1 := cost_le_one x1 y
  rw [lev_cons_cons, lev_single]
  simp only [lev_nil_left, lev_nil_right, List.length_cons, List.length_nil]
  omega

theorem lev_two_two (x0 x1 y0 y1 : Nat) (h0 : x0 ≠ y0) (h1 : x1 ≠ y1) :
    lev [x0, x1] [y0, y1] = 2 := by
  have c00 : cost x0 y0 = 1 := by unfold cost; rw [if_neg h0]
  have c11 : cost x1 y1 = 1 := by unfold cost; rw [if_neg h1]
  have c10 := cost_le_one x1 y0
  have c01 := cost_le_one x0 y1
  rw [lev_cons_cons, lev_one_two, lev_two_one, lev_single, c00, c11]
  omega

/-- After maximal trimming, a remainder with at most two code units on the
longer side has distance exactly that length (this justifies the shortcut of
the implementation). -/
theorem lev_small (u v : List Nat) (h1 : 1 ≤ u.length)
    (h2 : u.length ≤ v.length) (h3 : v.length ≤ 2)
    (hhead : u.getD 0 0 ≠ v.getD 0 0)
    (hlast : u.getD (u.length - 1) 0 ≠ v.getD (v.length - 1) 0) :
    lev u v = v.length := by
  rcases v with _ | ⟨v0, _ | ⟨v1, _ | ⟨v2, vr⟩⟩⟩
  · simp only [List.length_nil] at h2
    omega
  · rcases u with _ | ⟨u0, _ | ⟨u1, ur⟩⟩
    · simp at h1
    · have hh : u0 ≠ v0 := hhead
      show lev [u0] [v0] = 1
      rw [lev_single]
      unfold cost
      rw [if_neg hh]
    · simp only [List.length_cons, List.length_nil] at h2
      omega
  · rcases u with _ | ⟨u0, _ | ⟨u1, _ | ⟨u2, ur⟩⟩⟩
    · simp at h1
    · have hh : u0 ≠ v0 := hhead
      have hl : u0 ≠ v1 := hlast
      show lev [u0] [v0, v1] = 2
      have ch : cost u0 v0 = 1 := by unfold cost; rw [if_neg hh]
      have cl : cost u0 v1 = 1 := by unfold cost; rw [if_neg hl]
      rw [lev_one_two, ch, cl]
      omega
    · have hh : u0 ≠ v0 := hhead
      have hl : u1 ≠ v1 := hlast
      show lev [u0, u1] [v0, v1] = 2
      exact lev_two_two u0 u1 v0 v1 hh hl
    · simp only [List.length_cons] at h2 h3
      omega
  · simp only [List.length_cons] at h3
    omega

/-- The post-swap body computes the Levenshtein distance whenever the first
string is not longer than the second. -/
theorem levRest_eq (a b : List Nat) (hab : a.length ≤ b.length) :
    levRest a b = lev a b := by
  unfold levRest
  obtain ⟨s1, s2, s3, s4, s5, s6⟩ :=
    suffixTrim_inv a b a.length b.length le_rfl hab le_rfl
      (by simp [List.drop_length])
  set st := suffixTrim a b a.length b.length with hst
  obtain ⟨p1, p2, p3, p4⟩ :=
    prefixTrim_inv a b st.1 s1 (le_trans s3 s2) st.1 0 (by omega) (by omega)
      (by simp)
  set off := prefixTrim a b st.1 st.1 0 with hoffdef
  have E : lev a b =
      lev ((a.drop off).take (st.1 - off)) ((b.drop off).take (st.2 - off)) := by
    rw [lev_of_trims a b st.1 st.2 s5,
      lev_take_take a b st.1 st.2 off p2 (le_trans p2 s3) p3]
  simp only []
  by_cases hshort : st.1 - off = 0 ∨ st.2 - off < 3
  · rw [if_pos hshort, E]
    by_cases h0 : st.1 - off = 0
    · rw [h0, List.take_zero, lev_nil_left, List.length_take, List.length_drop]
      have hb2 : st.2 ≤ b.length := s2
      have hob : off ≤ st.2 := le_trans p2 s3
      omega
    · have hlb3 : st.2 - off < 3 := by
        rcases hshort with h | h
        · exact absurd h h0
        · exact h
      have hla1 : 1 ≤ st.1 - off := by omega
      have hlena : ((a.drop off).take (st.1 - off)).length = st.1 - off := by
        rw [List.length_take, List.length_drop]
        have := s1
        omega
      have hlenb : ((b.drop off).take (st.2 - off)).length = st.2 - off := by
        rw [List.length_take, List.length_drop]
        have := s2
        omega
      have hsmall := lev_small ((a.drop off).take (st.1 - off))
        ((b.drop off).take (st.2 - off))
        (by rw [hlena]; omega)
        (by rw [hlena, hlenb]; omega)
        (by rw [hlenb]; omega)
        (by
          rw [getD_take _ _ _ (by omega), getD_take _ _ _ (by omega),
            getD_drop, getD_drop]
          rcases p4 with hp | hp
          · omega
          · simpa using hp)
        (by
          rw [hlena, hlenb]
          rw [getD_take _ _ _ (by omega), getD_take _ _ _ (by omega),
            getD_drop, getD_drop]
          rcases s6 with hp | hp
          · omega
          · have ea : off + (st.1 - off - 1) = st.1 - 1 := by omega
            have eb : off + (st.2 - off - 1) = st.2 - 1 := by omega
            rw [ea, eb]
            exact hp)
      rw [hsmall, hlenb]
  · rw [if_neg hshort]
    push_neg at hshort
    obtain ⟨hne, hge3⟩ := hshort
    have hlena : ((a.drop off).take (st.1 - off)).length = st.1 - off := by
      rw [List.length_take, List.length_drop]
      have := s1
      omega
    have hlenb : ((b.drop off).take (st.2 - off)).length = st.2 - off := by
      rw [List.length_take, List.length_drop]
      have := s2
      omega
    have hbne : (b.drop off).take (st.2 - off) ≠ [] := by
      intro hnil
      rw [hnil] at hlenb
      simp at hlenb
      omega
    have hfull := levLoop_full ((a.drop off).take (st.1 - off))
      ((b.drop off).take (st.2 - off)) hbne
    rw [hlena] at hfull
    rw [hfull, ← E]

/-- The implementation levenshtein agrees with the specification distance on
every pair of code-unit strings. -/
theorem levenshtein_eq_lev (a b : List Nat) : levenshtein a b = lev a b := by
  unfold levenshtein
  by_cases he : a = b
  · rw [if_pos he, he, lev_self]
  · rw [if_neg he]
    by_cases hswap : b.length < a.length
    · rw [if_pos hswap, levRest_eq b a (by omega), lev_symm]
    · rw [if_neg hswap]
      exact levRest_eq a b (by omega)

/-! ## likelyTypo (_wk3_util.js) -/

/-- Translation of likelyTypo: length-tiered typo tolerance keyed on the
length (in UTF-16 code units) of the expected string. -/
def likelyTypo (expected typed : JStr) : Bool :=
  let d := levenshtein expected typed
  match expected.length with
  | 0 | 1 => expected == typed
  | 2 | 3 => d < 2
  | _ => d < 3

/-! ## Tokenisation (split of index.d.ts) and JS Set construction -/

/-- Scanner for splitting on the exact two-character pattern ", "
(the call split(str, ", ") used for the field token lists). -/
def splitCSGo (acc : List Nat) : List Nat → List JStr
  | [] => [acc.reverse]
  | [c] => [(c :: acc).reverse]
  | c1 :: c2 :: cs =>
      if c1 = 44 ∧ c2 = 32 then acc.reverse :: splitCSGo [] cs
      else splitCSGo (c1 :: acc) (c2 :: cs)

/-- The util split wrapper applied with the string pattern ", ": an empty
string yields no tokens, otherwise JavaScript String.split semantics. -/
def splitField (s : JStr) : List JStr :=
  if s = [] then [] else splitCSGo [] s

/-- The characters of the JavaScript whitespace class backslash-s. -/
def isJsSpace (c : Nat) : Bool :=
  c == 0x9 || c == 0xA || c == 0xB || c == 0xC || c == 0xD || c == 0x20 ||
  c == 0xA0 || c == 0x1680 || (0x2000 ≤ c ∧ c ≤ 0x200A : Bool) ||
  c == 0x2028 || c == 0x2029 || c == 0x202F || c == 0x205F || c == 0x3000 ||
  c == 0xFEFF

/-- ASCII comma or ideographic comma (the character class of the answer
splitting regular expression). -/
def isCommaLike (c : Nat) : Bool := c == 44 || c == 0x3001

/-- Scanner for splitting on the regular expression of comma-like character
followed by greedy whitespace; the flag records whether the scanner is
currently consuming the whitespace that follows a comma. -/
def splitRxGo (skipping : Bool) (acc : List Nat) : List Nat → List JStr
  | [] => [acc.reverse]
  | c :: cs =>
      if skipping && isJsSpace c then splitRxGo true acc cs
      else if isCommaLike c then acc.reverse :: splitRxGo true [] cs
      else splitRxGo false (c :: acc) cs

/-- The util split wrapper applied with the answer-splitting regular
expression (used on the typed answer in both templates). -/
def splitAnswers (s : JStr) : List JStr :=
  if s = [] then [] else splitRxGo false [] s

/-- Construction of a JavaScript Set from a list: first occurrences are
kept, in insertion order.  Membership is list membership. -/
def jsDedupGo (seen : List JStr) : List JStr → List JStr
  | [] => []
  | x :: xs =>
      if x ∈ seen then jsDedupGo seen xs else x :: jsDedupGo (x :: seen) xs

def jsDedup (l : List JStr) : List JStr := jsDedupGo [] l

theorem mem_jsDedupGo (l : List JStr) : ∀ (seen : List JStr) (x : JStr),
    x ∈ jsDedupGo seen l ↔ x ∈ l ∧ x ∉ seen := by
  induction l with
  | nil => intro seen x; simp [jsDedupGo]
  | cons y ys ih =>
      intro seen x
      simp only [jsDedupGo]
      by_cases hy : y ∈ seen
      · rw [if_pos hy, ih]
        constructor
        · rintro ⟨h1, h2⟩
          exact ⟨List.mem_cons_of_mem y h1, h2⟩
        · rintro ⟨h1, h2⟩
          rcases List.mem_cons.mp h1 with h | h
          · subst h; exact absurd hy h2
          · exact ⟨h, h2⟩
      · rw [if_neg hy]
        by_cases hxy : x = y
        · subst hxy
          constructor
          · intro _
            exact ⟨List.mem_cons_self x ys, hy⟩
          · intro _
            exact List.mem_cons_self x _
        · constructor
          · intro h
            rcases List.mem_cons.mp h with h | h
            · exact absurd h hxy
            · obtain ⟨h1, h2⟩ := (ih (y :: seen) x).mp h
              exact ⟨List.mem_cons_of_mem y h1,
                fun hc => h2 (List.mem_cons_of_mem y hc)⟩
          · rintro ⟨h1, h2⟩
            rcases List.mem_cons.mp h1 with h | h
            · exact absurd h hxy
            · refine List.mem_cons_of_mem y ((ih (y :: seen) x).mpr ⟨h, ?_⟩)
              intro hc
              rcases List.mem_cons.mp hc with hcy | hcs
              · exact hxy hcy
              · exact h2 hcs

theorem mem_jsDedup (l : List JStr) (x : JStr) : x ∈ jsDedup l ↔ x ∈ l := by
  unfold jsDedup
  rw [mem_jsDedupGo]
  simp

/-! ## Data model: template fields and external services

The per-card field record corresponds to the TemplateFields interface of
index.d.ts (restricted to the fields the grading and advising logic reads);
the card is injected into the templates as the global underscore record.
The external services record collects the black boxes the logic calls:
String.prototype.toLowerCase, the DOM-backed stripHTML of _wk3_util.js, and
the wanakana transliteration library. -/

inductive CardPrompt
  | Reading
  | Meaning
deriving DecidableEq, Repr

inductive CardType
  | Radical
  | Kanji
  | Vocabulary
  | KanaVocabulary
deriving DecidableEq, Repr

structure TemplateFields where
  Card : CardPrompt
  Card_Type : CardType
  Meaning : JStr
  Meaning_Whitelist : JStr
  Meaning_Blacklist : JStr
  Reading_Whitelist : JStr
  Reading_Onyomi : JStr
  Reading_Kunyomi : JStr
  Reading_Nanori : JStr
deriving DecidableEq, Repr

structure JsEnv where
  toLowerCase : JStr → JStr
  stripHTML : JStr → JStr
  toRomaji : JStr → JStr
  toKana : JStr → JStr
  isMixed : JStr → Bool

/-- mangleAnswer of the back template: lower-case the string, then remove
the first apostrophe if any (String.prototype.replace with a string pattern
replaces only the first occurrence). -/
def removeFirstQuote : JStr → JStr
  | [] => []
  | c :: cs => if c = 39 then cs else c :: removeFirstQuote cs

def mangleAnswer (env : JsEnv) (ans : JStr) : JStr :=
  removeFirstQuote (env.toLowerCase ans)

/-! ## Post-submission grader (setupBack of part_005) -/

inductive Verdict
  | Correct
  | Incorrect
deriving DecidableEq, Repr

/-- Observable outcome of the answer-checking part of setupBack: the
verdict CSS class put on the answer division (none when no answer was
typed), the list of typo suggestions (expected, answered) rendered into the
typos division, the answer text as displayed, and whether the input section
was hidden. -/
structure GradeResult where
  verdict : Option Verdict
  typos : List (JStr × JStr)
  displayed : Option JStr
  inputHidden : Bool
deriving DecidableEq, Repr

def meaningWhitelistBack (env : JsEnv) (f : TemplateFields) : List JStr :=
  jsDedup (splitField (env.toLowerCase f.Meaning_Whitelist))

def readingWhitelistBack (env : JsEnv) (f : TemplateFields) : List JStr :=
  jsDedup (splitField (env.toLowerCase f.Reading_Whitelist))

/-- The correctAnswers set of setupBack before mangling: for Meaning cards
the tokens of the Meaning field united with the whitelist tokens not among
them; for Reading cards the reading whitelist. -/
def correctAnswersBase (env : JsEnv) (f : TemplateFields) : List JStr :=
  match f.Card with
  | CardPrompt.Meaning =>
      let ca := jsDedup (splitField (env.toLowerCase f.Meaning))
      let accepted := (meaningWhitelistBack env f).filter
        (fun x => decide (x ∉ ca))
      jsDedup (ca ++ accepted)
  | CardPrompt.Reading => readingWhitelistBack env f

/-- The blacklist of setupBack: lower-cased meaning blacklist tokens,
only for Meaning cards. -/
def blacklistBack (env : JsEnv) (f : TemplateFields) : List JStr :=
  match f.Card with
  | CardPrompt.Meaning =>
      jsDedup ((splitField f.Meaning_Blacklist).map env.toLowerCase)
  | CardPrompt.Reading => []

/-- The comparison set: every base answer HTML-stripped and mangled. -/
def allAccepted (env : JsEnv) (f : TemplateFields) : List JStr :=
  jsDedup ((correctAnswersBase env f).map
    (fun a => mangleAnswer env (env.stripHTML a)))

/-- checkTypos of setupBack (a closure over the blacklist set): for every
answered token not in the blacklist, every expected token within likelyTypo
tolerance of it (after the optional extra mangling) yields one
suggestion. -/
def checkTypos (blacklist : List JStr) (expected : List JStr)
    (mangle : JStr → JStr) : List JStr → List (JStr × JStr)
  | [] => []
  | ans :: rest =>
      (if ans ∈ blacklist then []
       else expected.filterMap (fun exp =>
         if likelyTypo (mangle exp) (mangle ans) then some (exp, ans)
         else none)) ++
      checkTypos blacklist expected mangle rest

/-- The answer-checking tail of setupBack, as a function of the locked
(reconstructed) answer text. -/
def grade (env : JsEnv) (f : TemplateFields) (typedAnswer : JStr) :
    GradeResult :=
  let typedAnswerLower := mangleAnswer env typedAnswer
  if typedAnswerLower = [] then
    { verdict := none, typos := [], displayed := none, inputHidden := true }
  else
    let correctAnswers := allAccepted env f
    let answers := jsDedup (splitAnswers typedAnswerLower)
    if answers.all (fun t => decide (t ∈ correctAnswers)) then
      { verdict := some Verdict.Correct, typos := [],
        displayed := some typedAnswer, inputHidden := false }
    else
      { verdict := some Verdict.Incorrect,
        typos := checkTypos (blacklistBack env f) correctAnswers
          (match f.Card with
           | CardPrompt.Reading => env.toRomaji
           | CardPrompt.Meaning => fun x => x) answers,
        displayed := some typedAnswer, inputHidden := false }

/-! ## Pre-submission advisor (setupFront of _wk3_front.ts) -/

def meaningWhitelistFront (env : JsEnv) (f : TemplateFields) : List JStr :=
  jsDedup ((splitField f.Meaning_Whitelist).map env.toLowerCase)

def readingWhitelistFront (env : JsEnv) (f : TemplateFields) : List JStr :=
  jsDedup ((splitField f.Reading_Whitelist).map env.stripHTML)

/-- readingAll of setupFront: the HTML-stripped onyomi and kunyomi tokens
(the nanori field is not consulted). -/
def readingAll (env : JsEnv) (f : TemplateFields) : List JStr :=
  jsDedup ((splitField f.Reading_Onyomi ++ splitField f.Reading_Kunyomi).map
    env.stripHTML)

/-- readingWarning of setupFront: real readings not in the whitelist. -/
def readingWarning (env : JsEnv) (f : TemplateFields) : List JStr :=
  (readingAll env f).filter
    (fun x => decide (x ∉ readingWhitelistFront env f))

/-- checkWarning of setupFront, on the set of currently typed tokens. -/
def checkWarning (env : JsEnv) (f : TemplateFields) (answers : List JStr) :
    Bool :=
  match f.Card with
  | CardPrompt.Reading =>
      if answers.any env.isMixed then true
      else if answers.all
          (fun t => decide (t ∈ readingWhitelistFront env f)) then false
      else
        let romaji := jsDedup (answers.map
          (fun s => env.toLowerCase (env.toRomaji s)))
        if romaji.all (fun t => decide (t ∈ meaningWhitelistFront env f)) then
          true
        else
          let kana := jsDedup ((meaningWhitelistFront env f).map env.toKana)
          if answers.all (fun t => decide (t ∈ kana)) then true
          else
            match f.Card_Type with
            | CardType.Kanji | CardType.Vocabulary =>
                answers.all (fun t => decide (t ∈ readingAll env f)) &&
                answers.any (fun t => decide (t ∈ readingWarning env f))
            | _ => false
  | CardPrompt.Meaning =>
      if answers.all (fun t => decide (t ∈ meaningWhitelistFront env f)) then
        false
      else
        (jsDedup (answers.map env.toKana)).all
          (fun t => decide (t ∈ readingAll env f))

/-- The Enter-keypress handler of setupFront: rewrite a trailing latin n to
the syllabic-n kana on Reading cards, tokenize, and shake when the token
set is non-empty and checkWarning fires. -/
def submitShake (env : JsEnv) (f : TemplateFields) (value : JStr) : Bool :=
  let value2 :=
    if f.Card = CardPrompt.Reading ∧ value.getLast? = some 110 then
      value.dropLast ++ [0x3093]
    else value
  let answers := jsDedup (splitAnswers value2)
  decide (answers ≠ []) && checkWarning env f answers

/-! ## Concrete instances for witnesses and counterexamples

The concrete service record mirrors the behaviour of the real black boxes
on the inputs that appear below: String.prototype.toLowerCase is ASCII
lower-casing on ASCII text, stripHTML is the identity on markup-free text,
wanakana.toRomaji is the identity on pure-latin text, wanakana.isMixed is
false on single-script text, and wanakana.toKana converts latin romaji to
kana (here recorded pointwise for the syllable hi). -/

def asciiLower (s : JStr) : JStr :=
  s.map (fun c => if 65 ≤ c ∧ c ≤ 90 then c + 32 else c)

def env0 : JsEnv :=
  { toLowerCase := asciiLower
    stripHTML := id
    toRomaji := id
    toKana := id
    isMixed := fun _ => false }

def envK : JsEnv :=
  { toLowerCase := asciiLower
    stripHTML := id
    toRomaji := id
    toKana := fun s => if s = [104, 105] then [0x3072] else s
    isMixed := fun _ => false }

/-- A Meaning card with every field empty. -/
def fieldsEmptyMeaning : TemplateFields :=
  { Card := CardPrompt.Meaning
    Card_Type := CardType.Kanji
    Meaning := []
    Meaning_Whitelist := []
    Meaning_Blacklist := []
    Reading_Whitelist := []
    Reading_Onyomi := []
    Reading_Kunyomi := []
    Reading_Nanori := [] }

/-- A Reading card whose whitelist field is upper-case ABC while the onyomi
field holds the lower-case abc. -/
def fieldsC4 : TemplateFields :=
  { Card := CardPrompt.Reading
    Card_Type := CardType.Kanji
    Meaning := []
    Meaning_Whitelist := []
    Meaning_Blacklist := []
    Reading_Whitelist := [65, 66, 67]
    Reading_Onyomi := [97, 98, 99]
    Reading_Kunyomi := []
    Reading_Nanori := [] }

/-- A Reading card whose whitelist field is the lower-case abc. -/
def fieldsC4W : TemplateFields :=
  { Card := CardPrompt.Reading
    Card_Type := CardType.Kanji
    Meaning := []
    Meaning_Whitelist := []
    Meaning_Blacklist := []
    Reading_Whitelist := [97, 98, 99]
    Reading_Onyomi := []
    Reading_Kunyomi := []
    Reading_Nanori := [] }

/-- A Reading card whose only reading data is a nanori entry. -/
def fieldsC6 : TemplateFields :=
  { Card := CardPrompt.Reading
    Card_Type := CardType.Kanji
    Meaning := []
    Meaning_Whitelist := []
    Meaning_Blacklist := []
    Reading_Whitelist := []
    Reading_Onyomi := []
    Reading_Kunyomi := []
    Reading_Nanori := [97] }

/-- A Meaning card with meaning abd and blacklist abc. -/
def fieldsC7 : TemplateFields :=
  { Card := CardPrompt.Meaning
    Card_Type := CardType.Kanji
    Meaning := [97, 98, 100]
    Meaning_Whitelist := []
    Meaning_Blacklist := [97, 98, 99]
    Reading_Whitelist := []
    Reading_Onyomi := []
    Reading_Kunyomi := []
    Reading_Nanori := [] }

/-- A Meaning card whose meaning field holds two apostrophes. -/
def fieldsC8 : TemplateFields :=
  { Card := CardPrompt.Meaning
    Card_Type := CardType.Kanji
    Meaning := [97, 39, 39, 98]
    Meaning_Whitelist := []
    Meaning_Blacklist := []
    Reading_Whitelist := []
    Reading_Onyomi := []
    Reading_Kunyomi := []
    Reading_Nanori := [] }

/-- A Reading card whose meaning whitelist holds the romaji word hi. -/
def fieldsC10 : TemplateFields :=
  { Card := CardPrompt.Reading
    Card_Type := CardType.Radical
    Meaning := []
    Meaning_Whitelist := [104, 105]
    Meaning_Blacklist := []
    Reading_Whitelist := []
    Reading_Onyomi := []
    Reading_Kunyomi := []
    Reading_Nanori := [] }

/-! ## Claim C2 -/

/-- Claim C2: likelyTypo implements the exact length-tiered policy keyed on
the length of the expected string: exact equality for lengths 0 and 1,
distance below 2 for lengths 2 and 3, distance below 3 for length at least
4 (distance being the standard Levenshtein distance). -/
theorem claimC2_likelyTypo_tiers (expected typed : JStr) :
    likelyTypo expected typed =
      (if expected.length = 0 ∨ expected.length = 1 then expected == typed
       else if expected.length = 2 ∨ expected.length = 3 then
         decide (lev expected typed < 2)
       else decide (lev expected typed < 3)) := by
  unfold likelyTypo
  rcases hn : expected.length with _ | _ | _ | _ | k <;>
    simp [hn, levenshtein_eq_lev]

/-! ## Claim C3 -/

/-- UTF-16 encoding of a sequence of Unicode code points: one code unit for
a code point in the basic multilingual plane, a surrogate pair otherwise. -/
def utf16Encode : List Nat → JStr
  | [] => []
  | cp :: rest =>
      (if cp < 0x10000 then [cp]
       else [0xD800 + (cp - 0x10000) / 0x400, 0xDC00 + (cp - 0x10000) % 0x400]) ++
        utf16Encode rest

/-- Claim C3 counterexample: on the single astral code point U+1D11E the
implementation counts two edits against the empty string (it operates on
UTF-16 code units through charCodeAt), while the code-point Levenshtein
distance demanded by the claim is one. -/
theorem claimC3_counterexample :
    levenshtein (utf16Encode [0x1D11E]) (utf16Encode []) ≠ lev [0x1D11E] [] := by
  have h1 : levenshtein (utf16Encode [0x1D11E]) (utf16Encode []) = 2 := by rfl
  have h2 : lev [0x1D11E] [] = 1 := by rw [lev_nil_right]; rfl
  rw [h1, h2]
  decide

/-- Claim C3 (amended): levenshtein equals the standard unit-cost
Levenshtein distance over sequences of UTF-16 code units (not code points);
for strings of basic-multilingual-plane characters the two notions agree
because each such code point encodes as exactly one code unit. -/
theorem claimC3_amended :
    (∀ a b : JStr, levenshtein a b = lev a b) ∧
    (∀ cps : List Nat, (∀ c ∈ cps, c < 0x10000) → utf16Encode cps = cps) := by
  constructor
  · exact levenshtein_eq_lev
  · intro cps h
    induction cps with
    | nil => rfl
    | cons c rest ih =>
        simp only [utf16Encode]
        rw [if_pos (h c (List.mem_cons_self c rest))]
        rw [ih (fun x hx => h x (List.mem_cons_of_mem c hx))]
        rfl

/-- Witness for claim C3 (amended) at concrete inputs. -/
theorem claimC3_witness :
    utf16Encode [0x3042] = [0x3042] ∧ levenshtein [97] [98] = lev [97] [98] :=
  ⟨claimC3_amended.2 [0x3042] (by decide), claimC3_amended.1 [97] [98]⟩

/-! ## Claim C9 -/

/-- Claim C9: the triangle inequality holds for the optimized banded
levenshtein implementation. -/
theorem claimC9_triangle (a b c : JStr) :
    levenshtein a c ≤ levenshtein a b + levenshtein b c := by
  rw [levenshtein_eq_lev, levenshtein_eq_lev, levenshtein_eq_lev]
  exact lev_triangle a b c

/-! ## Claim C5 -/

/-- Claim C5 counterexample: grading an empty locked answer text does not
produce the Incorrect verdict the claim demands; the code skips grading
altogether (no verdict class is assigned and the input area is hidden). -/
theorem claimC5_counterexample :
    ¬ ((grade env0 fieldsEmptyMeaning []).verdict = some Verdict.Incorrect ∧
       (grade env0 fieldsEmptyMeaning []).typos = []) := by
  decide

/-- Claim C5 (amended): grading an empty locked answer text produces no
verdict at all and zero typo suggestions, and hides the input section
(provided lower-casing maps the empty string to itself, as
String.prototype.toLowerCase does). -/
theorem claimC5_amended (env : JsEnv) (f : TemplateFields)
    (h : env.toLowerCase [] = []) :
    (grade env f []).verdict = none ∧ (grade env f []).typos = [] ∧
    (grade env f []).inputHidden = true := by
  have hm : mangleAnswer env [] = [] := by
    unfold mangleAnswer
    rw [h]
    rfl
  simp only [grade]
  rw [if_pos hm]
  exact ⟨rfl, rfl, rfl⟩

/-- Witness for claim C5 (amended) at a concrete card. -/
theorem claimC5_witness :
    (grade env0 fieldsEmptyMeaning []).verdict = none ∧
    (grade env0 fieldsEmptyMeaning []).typos = [] ∧
    (grade env0 fieldsEmptyMeaning []).inputHidden = true :=
  claimC5_amended env0 fieldsEmptyMeaning (by decide)

/-! ## Claim C6 -/

/-- Modelled from the spec: the reading inventory the claim asserts, the
union of onyomi, kunyomi and nanori tokens, normalized. -/
def readingAllSpec (env : JsEnv) (f : TemplateFields) : List JStr :=
  jsDedup ((splitField f.Reading_Onyomi ++ splitField f.Reading_Kunyomi ++
    splitField f.Reading_Nanori).map env.stripHTML)

/-- Replace the three reading-inventory fields of a card. -/
def setReadings (f : TemplateFields) (o k n : JStr) : TemplateFields :=
  { f with Reading_Onyomi := o, Reading_Kunyomi := k, Reading_Nanori := n }

/-- Claim C6 counterexample: a card whose only reading data is a nanori
entry has an empty readingAll, although the claimed union including nanori
is non-empty (the front template only consults onyomi and kunyomi). -/
theorem claimC6_counterexample :
    readingAll env0 fieldsC6 ≠ readingAllSpec env0 fieldsC6 := by
  decide

/-- Claim C6 (amended): the reading inventory the Advisor consults is the
stripHTML-normalized union of the onyomi and kunyomi tokens only (nanori is
not included), and the Grader is independent of all three reading-inventory
fields (they are consulted only by the Advisor). -/
theorem claimC6_amended (env : JsEnv) (f : TemplateFields) :
    (∀ x : JStr, x ∈ readingAll env f ↔
      ∃ t, (t ∈ splitField f.Reading_Onyomi ∨
            t ∈ splitField f.Reading_Kunyomi) ∧ env.stripHTML t = x) ∧
    (∀ o k n text, grade env (setReadings f o k n) text = grade env f text) := by
  constructor
  · intro x
    unfold readingAll
    rw [mem_jsDedup]
    constructor
    · intro hx
      obtain ⟨t, ht, hs⟩ := List.mem_map.mp hx
      rcases List.mem_append.mp ht with h | h
      · exact ⟨t, Or.inl h, hs⟩
      · exact ⟨t, Or.inr h, hs⟩
    · rintro ⟨t, ht | ht, hs⟩
      · exact List.mem_map.mpr ⟨t, List.mem_append.mpr (Or.inl ht), hs⟩
      · exact List.mem_map.mpr ⟨t, List.mem_append.mpr (Or.inr ht), hs⟩
  · intro o k n text
    obtain ⟨c, ct, m, mw, mb, rwl, ony, kun, nan⟩ := f
    cases c <;> rfl

/-! ## Claim C1 -/

/-- The submitted tokens as the claim words them: split the locked text on
the comma-like delimiters, then normalize each token for comparison. -/
def submittedTokensSpec (env : JsEnv) (text : JStr) : List JStr :=
  (splitAnswers text).map (mangleAnswer env)

/-- The statement of claim C1 at one card, service record and locked
text: for non-empty locked text the verdict is Correct exactly when every
submitted token is accepted, and Incorrect otherwise. -/
def claimC1Statement (env : JsEnv) (f : TemplateFields) (text : JStr) : Prop :=
  text ≠ [] →
    (((grade env f text).verdict = some Verdict.Correct) ↔
      (∀ t ∈ submittedTokensSpec env text, t ∈ allAccepted env f)) ∧
    (¬ (∀ t ∈ submittedTokensSpec env text, t ∈ allAccepted env f) →
      (grade env f text).verdict = some Verdict.Incorrect)

/-- Claim C1 counterexample: for the non-empty locked text consisting of a
single apostrophe, normalization empties the text, the grader skips grading
entirely and produces no verdict, although the claim demands Incorrect. -/
theorem claimC1_counterexample :
    ¬ claimC1Statement env0 fieldsEmptyMeaning [39] := by
  intro h
  obtain ⟨h1, h2⟩ := h (by decide)
  have hns : ¬ (∀ t ∈ submittedTokensSpec env0 [39],
      t ∈ allAccepted env0 fieldsEmptyMeaning) := by decide
  have hv := h2 hns
  have hnone : (grade env0 fieldsEmptyMeaning [39]).verdict = none := by rfl
  rw [hnone] at hv
  exact Option.noConfusion hv

/-- Claim C1 (amended): whenever the normalized locked text (case-folded,
first apostrophe removed) is non-empty, the verdict is Correct iff every
token of the normalized text is in allAccepted, and Incorrect iff some
token is not; when the normalized text is empty no verdict is produced. -/
theorem claimC1_amended (env : JsEnv) (f : TemplateFields) (text : JStr)
    (h : mangleAnswer env text ≠ []) :
    ((grade env f text).verdict = some Verdict.Correct ↔
      ∀ t ∈ splitAnswers (mangleAnswer env text), t ∈ allAccepted env f) ∧
    ((grade env f text).verdict = some Verdict.Incorrect ↔
      ¬ ∀ t ∈ splitAnswers (mangleAnswer env text), t ∈ allAccepted env f) := by
  simp only [grade]
  rw [if_neg h]
  by_cases hall : (jsDedup (splitAnswers (mangleAnswer env text))).all
      (fun t => decide (t ∈ allAccepted env f)) = true
  · rw [if_pos hall]
    have hP : ∀ t ∈ splitAnswers (mangleAnswer env text),
        t ∈ allAccepted env f := by
      intro t ht
      exact of_decide_eq_true
        (List.all_eq_true.mp hall t ((mem_jsDedup _ _).mpr ht))
    constructor
    · exact ⟨fun _ => hP, fun _ => rfl⟩
    · constructor
      · intro hc
        simp at hc
      · intro hc
        exact absurd hP hc
  · rw [if_neg hall]
    have hP : ¬ ∀ t ∈ splitAnswers (mangleAnswer env text),
        t ∈ allAccepted env f := by
      intro hP
      apply hall
      rw [List.all_eq_true]
      intro t ht
      exact decide_eq_true (hP t ((mem_jsDedup _ _).mp ht))
    constructor
    · constructor
      · intro hc
        simp at hc
      · intro hc
        exact absurd hc hP
    · exact ⟨fun _ => hP, fun _ => rfl⟩

/-- Witness for claim C1 (amended) at a concrete card and text. -/
theorem claimC1_witness :
    mangleAnswer env0 [97] ≠ [] ∧
    ((grade env0 fieldsEmptyMeaning [97]).verdict = some Verdict.Correct ↔
      ∀ t ∈ splitAnswers (mangleAnswer env0 [97]),
        t ∈ allAccepted env0 fieldsEmptyMeaning) :=
  ⟨by decide, (claimC1_amended env0 fieldsEmptyMeaning [97] (by decide)).1⟩

/-! ## Claim C4 -/

/-- The statement of claim C4 at one card, service record and typed text:
if grading the typed input after submission would produce Correct, the
Advisor does not warn on it. -/
def claimC4Statement (env : JsEnv) (f : TemplateFields) (text : JStr) : Prop :=
  text ≠ [] → (grade env f text).verdict = some Verdict.Correct →
    checkWarning env f (jsDedup (splitAnswers text)) = false

/-- Claim C4 counterexample: on a Reading card whose whitelist field is
upper-case ABC and whose onyomi field is abc, the typed answer abc grades
Correct (the grader lower-cases the whitelist) yet the Advisor warns (its
whitelist is not lower-cased, so the typed answer looks like an unlisted
real reading).  The service record agrees with the real black boxes on
every string involved. -/
theorem claimC4_counterexample :
    ¬ claimC4Statement env0 fieldsC4 [97, 98, 99] := by
  intro h
  have hw := h (by decide) (by decide)
  have ht : checkWarning env0 fieldsC4 (jsDedup (splitAnswers [97, 98, 99])) =
      true := by decide
  rw [ht] at hw
  exact Bool.noConfusion hw

/-- Claim C4 (amended): the Advisor never warns when every typed token lies
in the whitelist of the current mode as the Advisor itself normalizes it
(stripHTML for the reading whitelist, case-folding for the meaning
whitelist) and, on Reading cards, no typed token is mixed-script.  The
unrestricted claim fails because the Advisor and the Grader normalize the
whitelist differently and because the mixed-script check precedes the
whitelist check. -/
theorem claimC4_amended (env : JsEnv) (f : TemplateFields)
    (answers : List JStr)
    (hwl : ∀ t ∈ answers, t ∈ (match f.Card with
      | CardPrompt.Reading => readingWhitelistFront env f
      | CardPrompt.Meaning => meaningWhitelistFront env f))
    (hmix : f.Card = CardPrompt.Reading →
      ∀ t ∈ answers, env.isMixed t = false) :
    checkWarning env f answers = false := by
  cases hcard : f.Card with
  | Reading =>
      have hm := hmix hcard
      have h1 : answers.any env.isMixed = false := by
        rw [List.any_eq_false]
        intro t ht
        simp [hm t ht]
      have h2 : answers.all
          (fun t => decide (t ∈ readingWhitelistFront env f)) = true := by
        rw [List.all_eq_true]
        intro t ht
        have hw := hwl t ht
        rw [hcard] at hw
        exact decide_eq_true hw
      simp only [checkWarning, hcard]
      rw [h1, h2]
      rfl
  | Meaning =>
      have h2 : answers.all
          (fun t => decide (t ∈ meaningWhitelistFront env f)) = true := by
        rw [List.all_eq_true]
        intro t ht
        have hw := hwl t ht
        rw [hcard] at hw
        exact decide_eq_true hw
      simp only [checkWarning, hcard]
      rw [h2]
      rfl

/-- Witness for claim C4 (amended) at a concrete card and answer set. -/
theorem claimC4_witness :
    checkWarning env0 fieldsC4W [[97, 98, 99]] = false :=
  claimC4_amended env0 fieldsC4W [[97, 98, 99]] (by decide) (by decide)

/-! ## Claim C7 -/

theorem checkTypos_not_blacklisted (blacklist expected : List JStr)
    (mangle : JStr → JStr) : ∀ (answers : List JStr) (e s : JStr),
    (e, s) ∈ checkTypos blacklist expected mangle answers → s ∉ blacklist := by
  intro answers
  induction answers with
  | nil =>
      intro e s h
      simp [checkTypos] at h
  | cons ans rest ih =>
      intro e s h
      simp only [checkTypos, List.mem_append] at h
      rcases h with h | h
      · by_cases hb : ans ∈ blacklist
        · rw [if_pos hb] at h
          simp at h
        · rw [if_neg hb] at h
          obtain ⟨exp, hexp, hsome⟩ := List.mem_filterMap.mp h
          by_cases hl : likelyTypo (mangle exp) (mangle ans) = true
          · rw [if_pos hl] at hsome
            have hp := Option.some.inj hsome
            have hans : ans = s := congrArg Prod.snd hp
            rw [← hans]
            exact hb
          · rw [if_neg hl] at hsome
            exact Option.noConfusion hsome
      · exact ih e s h

/-- Claim C7: in Meaning mode, a submitted token that is in the blacklist
generates no typo suggestion pairing it with any accepted answer, even when
it is within likelyTypo tolerance of one. -/
theorem claimC7_blacklist_suppresses (env : JsEnv) (f : TemplateFields)
    (text s : JStr) (hcard : f.Card = CardPrompt.Meaning)
    (hs : s ∈ blacklistBack env f) :
    ∀ e : JStr, (e, s) ∉ (grade env f text).typos := by
  intro e hmem
  simp only [grade] at hmem
  split_ifs at hmem
  · simp at hmem
  · simp at hmem
  · exact absurd hs
      (checkTypos_not_blacklisted (blacklistBack env f) _ _ _ e s hmem)

/-- Witness for claim C7: on the concrete Meaning card with meaning abd and
blacklist abc, the blacklisted near-miss abc yields no suggestion. -/
theorem claimC7_witness :
    fieldsC7.Card = CardPrompt.Meaning ∧
    ([97, 98, 99] : JStr) ∈ blacklistBack env0 fieldsC7 ∧
    (([97, 98, 100], [97, 98, 99]) : JStr × JStr) ∉
      (grade env0 fieldsC7 [97, 98, 99]).typos :=
  ⟨rfl, by decide,
    claimC7_blacklist_suppresses env0 fieldsC7 [97, 98, 99] [97, 98, 99] rfl
      (by decide) [97, 98, 100]⟩

/-! ## Claim C8 -/

/-- Modelled from the spec: the normalization the claim asserts, namely the
case-folded form with all apostrophes stripped. -/
def mangleSpec (env : JsEnv) (s : JStr) : JStr :=
  (env.toLowerCase s).filter (fun c => decide (c ≠ 39))

/-- Modelled from the spec: the verdict the claim asserts, computed on the
claimed normalized forms of the submitted tokens and accepted answers. -/
def verdictSpecC8 (env : JsEnv) (f : TemplateFields) (text : JStr) : Verdict :=
  if ∀ t ∈ (splitAnswers text).map (mangleSpec env),
      t ∈ (correctAnswersBase env f).map (fun a => mangleSpec env (env.stripHTML a))
  then Verdict.Correct else Verdict.Incorrect

/-- Claim C8 counterexample: on a Meaning card whose accepted answer holds
two apostrophes, the typed answer ab grades Incorrect, although comparison
in the claimed normalization (all apostrophes stripped) would grade it
Correct — String.prototype.replace removes only the first apostrophe. -/
theorem claimC8_counterexample :
    (grade env0 fieldsC8 [97, 98]).verdict = some Verdict.Incorrect ∧
    verdictSpecC8 env0 fieldsC8 [97, 98] = Verdict.Correct := by
  constructor
  · rfl
  · decide

/-- Claim C8 (amended): comparison is performed on normalized forms that
are case-folded with only the first apostrophe removed; each accepted
answer is normalized individually (after stripHTML) while the submitted
text is normalized once as a whole and then split; the displayed answer
text is left untouched. -/
theorem claimC8_amended (env : JsEnv) (f : TemplateFields) (text : JStr)
    (h : mangleAnswer env text ≠ []) :
    mangleAnswer env text = removeFirstQuote (env.toLowerCase text) ∧
    (grade env f text).displayed = some text ∧
    ((grade env f text).verdict = some Verdict.Correct ↔
      ∀ t ∈ splitAnswers (mangleAnswer env text),
        t ∈ (correctAnswersBase env f).map
          (fun a => mangleAnswer env (env.stripHTML a))) := by
  refine ⟨rfl, ?_, ?_⟩
  · simp only [grade]
    rw [if_neg h]
    split <;> rfl
  · simp only [grade]
    rw [if_neg h]
    by_cases hall : (jsDedup (splitAnswers (mangleAnswer env text))).all
        (fun t => decide (t ∈ allAccepted env f)) = true
    · rw [if_pos hall]
      constructor
      · intro _ t ht
        have hmem := of_decide_eq_true
          (List.all_eq_true.mp hall t ((mem_jsDedup _ _).mpr ht))
        exact (mem_jsDedup _ _).mp hmem
      · intro _
        rfl
    · rw [if_neg hall]
      constructor
      · intro hc
        simp at hc
      · intro hP
        exfalso
        apply hall
        rw [List.all_eq_true]
        intro t ht
        exact decide_eq_true ((mem_jsDedup _ _).mpr
          (hP t ((mem_jsDedup _ _).mp ht)))

/-- Witness for claim C8 (amended) at a concrete card and text. -/
theorem claimC8_witness :
    mangleAnswer env0 [97, 98] ≠ [] ∧
    (grade env0 fieldsC8 [97, 98]).displayed = some [97, 98] :=
  ⟨by decide, (claimC8_amended env0 fieldsC8 [97, 98] (by decide)).2.1⟩

/-! ## Claim C10 -/

/-- Claim C10: in Reading mode, when the typed token set is not covered by
the reading whitelist and its romanized case-folded image is not covered by
the meaning whitelist, the Advisor warns whenever every typed token equals
the kana transliteration of some meaning-whitelist entry; the rule fires
before the unlisted-reading check (no hypothesis about the reading
inventory or the card subject kind is needed). -/
theorem claimC10_kana_of_meaning_warns (env : JsEnv) (f : TemplateFields)
    (answers : List JStr) (hcard : f.Card = CardPrompt.Reading)
    (h1 : ¬ ∀ t ∈ answers, t ∈ readingWhitelistFront env f)
    (h2 : ¬ ∀ t ∈ jsDedup (answers.map
        (fun s => env.toLowerCase (env.toRomaji s))),
      t ∈ meaningWhitelistFront env f)
    (h3 : ∀ t ∈ answers,
      t ∈ jsDedup ((meaningWhitelistFront env f).map env.toKana)) :
    checkWarning env f answers = true := by
  have hb1 : answers.all
      (fun t => decide (t ∈ readingWhitelistFront env f)) = false := by
    rw [List.all_eq_false]
    push_neg at h1
    obtain ⟨t, ht, hnt⟩ := h1
    exact ⟨t, ht, by simpa using hnt⟩
  have hb2 : (jsDedup (answers.map
      (fun s => env.toLowerCase (env.toRomaji s)))).all
      (fun t => decide (t ∈ meaningWhitelistFront env f)) = false := by
    rw [List.all_eq_false]
    push_neg at h2
    obtain ⟨t, ht, hnt⟩ := h2
    exact ⟨t, ht, by simpa using hnt⟩
  have hb3 : answers.all (fun t => decide
      (t ∈ jsDedup ((meaningWhitelistFront env f).map env.toKana))) = true := by
    rw [List.all_eq_true]
    intro t ht
    exact decide_eq_true (h3 t ht)
  simp only [checkWarning, hcard]
  cases hmix : answers.any env.isMixed
  · rw [hb1, hb2, hb3]
    rfl
  · rfl

/-- Witness for claim C10 at a concrete Reading card whose meaning
whitelist holds the romaji hi, with the typed token being its kana form. -/
theorem claimC10_witness : checkWarning envK fieldsC10 [[0x3072]] = true :=
  claimC10_kana_of_meaning_warns envK fieldsC10 [[0x3072]] rfl (by decide)
    (by decide) (by decide)

end Wk3
